import Mathlib

/-!
Verification of the takopi dispatch core: a shallow embedding of the
resolver (`transport_runtime.py`), the progress renderer (`render.py`) and
the telegram bridge helpers (`telegram/bridge.py`), together with theorems
about the behaviour of those functions.
-/

namespace Takopi

/-- A `(project, branch)` pair selecting the working directory of a run
(`context.RunContext`); either component may be absent. -/
structure RunContext where
  project : Option String
  branch : Option String
deriving DecidableEq, Repr

/-- An engine-opaque resume token together with its owning engine
(`model.ResumeToken`). -/
structure ResumeToken where
  engine : String
  value : String
deriving DecidableEq, Repr

/-- One configured project (`config.ProjectConfig`); only the fields the
resolver reads are embedded. -/
structure ProjectConfig where
  projAlias : String
  default_engine : Option String
deriving DecidableEq, Repr

/-- The project table (`config.ProjectsConfig`): keyed projects, the
configured default project, and the chat-id → project map. -/
structure ProjectsConfig where
  projects : List (String × ProjectConfig)
  default_project : Option String
  chat_map : List (Int × String)
deriving DecidableEq, Repr

/-- Dictionary lookup `self._projects.projects.get(key)`. -/
def ProjectsConfig.get (ps : ProjectsConfig) (key : String) : Option ProjectConfig :=
  (ps.projects.find? (fun kp => kp.1 = key)).map (fun kp => kp.2)

/-- Modelled from the spec: `ProjectsConfig.project_for_chat` (config.py is
not part of the sources) maps a chat id to the project bound to that chat
via the chat map, and `None` when the chat id is absent or unmapped. -/
def ProjectsConfig.projectForChat (ps : ProjectsConfig) (chatId : Option Int) :
    Option String :=
  chatId.bind (fun c => (ps.chat_map.find? (fun e => e.1 = c)).map (fun e => e.2))

/-- Split a character list at separators chosen by the predicate, keeping
empty segments. -/
def splitChars (p : Char → Bool) (cs : List Char) : List (List Char) :=
  cs.foldr (fun c acc =>
    match acc with
    | w :: ws => if p c then [] :: w :: ws else (c :: w) :: ws
    | [] => [[c]]) [[]]

/-- Split a string at a separator character, keeping empty segments, as
Python `str.split(sep)`. -/
def strSplitOnChar (sep : Char) (s : String) : List String :=
  (splitChars (fun c => c = sep) s.data).map (fun w => ⟨w⟩)

/-- Split a text into whitespace-separated words, as Python `str.split()`. -/
def wordsOf (s : String) : List String :=
  ((splitChars (fun c => c = ' ' ∨ c = '\n' ∨ c = '\t' ∨ c = '\r') s.data).filter
    (fun w => w ≠ [])).map (fun w => ⟨w⟩)

/-- Python `str.lower()`. -/
def strToLower (s : String) : String := ⟨s.data.map Char.toLower⟩

/-- Python `str.startswith(pre)`. -/
def strStartsWith (s pre : String) : Bool := pre.data.isPrefixOf s.data

/-- Drop the first `n` characters of a string. -/
def strDrop (s : String) (n : ℕ) : String := ⟨s.data.drop n⟩

/-- Python `str.strip()`. -/
def strTrim (s : String) : String :=
  ⟨((s.data.dropWhile (fun c => c.isWhitespace)).reverse.dropWhile
    (fun c => c.isWhitespace)).reverse⟩

/-- Join strings with a separator, as `sep.join(parts)`. -/
def strJoin (sep : String) : List String → String
  | [] => ""
  | [x] => x
  | x :: xs => x ++ sep ++ strJoin sep xs

/-- Result of `directives.parse_directives`: the leading `/engine`,
`/project` and `@branch` tokens and the remaining prompt. -/
structure Directives where
  engine : Option String
  project : Option String
  branch : Option String
  prompt : String
deriving DecidableEq, Repr

/-- Find the engine id whose lowercase form equals the given lowercase word. -/
def matchEngine (engineIds : List String) (w : String) : Option String :=
  engineIds.find? (fun e => strToLower e = w)

/-- Find the project key whose alias matches the given lowercase word
(case-insensitively). -/
def matchProjectAlias (ps : ProjectsConfig) (w : String) : Option String :=
  (ps.projects.find? (fun kp => strToLower kp.2.projAlias = w)).map (fun kp => kp.1)

/-- Modelled from the spec: the token loop of `directives.parse_directives`
(directives.py is not part of the sources).  Leading `/word` tokens are
matched case-insensitively against engine ids and project aliases, leading
`@branch` tokens set the branch, and the first non-directive token begins
the prompt.  `resume:` tokens are not consumed here: the router detects
them inside the prompt. -/
def parseDirectivesAux (engineIds : List String) (ps : ProjectsConfig) :
    List String → Option String → Option String → Option String → Directives
  | [], e, p, b => ⟨e, p, b, ""⟩
  | tok :: rest, e, p, b =>
    if strStartsWith tok "/" ∧ tok.length > 1 then
      let w := strToLower (strDrop tok 1)
      match matchEngine engineIds w with
      | some eng => parseDirectivesAux engineIds ps rest (some eng) p b
      | none =>
        match matchProjectAlias ps w with
        | some key => parseDirectivesAux engineIds ps rest e (some key) b
        | none => ⟨e, p, b, strJoin " " (tok :: rest)⟩
    else if strStartsWith tok "@" ∧ tok.length > 1 then
      parseDirectivesAux engineIds ps rest e p (some (strDrop tok 1))
    else
      ⟨e, p, b, strJoin " " (tok :: rest)⟩

/-- Modelled from the spec: `directives.parse_directives`. -/
def parseDirectives (text : String) (engineIds : List String) (ps : ProjectsConfig) :
    Directives :=
  parseDirectivesAux engineIds ps (wordsOf text) none none none

/-- Modelled from the spec: `directives.parse_context_line` (directives.py
is not part of the sources).  The first line of the reply text is matched
against the canonical `project @branch` (or `project`, or `@branch`)
header; a project word must be a known alias and is mapped back to its
project key. -/
def parseContextLine (replyText : Option String) (ps : ProjectsConfig) :
    Option RunContext :=
  match replyText with
  | none => none
  | some r =>
    let line := (strSplitOnChar '\n' r).headD ""
    match wordsOf line with
    | [w] =>
      match matchProjectAlias ps (strToLower w) with
      | some key => some ⟨some key, none⟩
      | none =>
        if strStartsWith w "@" ∧ w.length > 1 then some ⟨none, some (strDrop w 1)⟩
        else none
    | [w, b] =>
      match matchProjectAlias ps (strToLower w) with
      | some key =>
        if strStartsWith b "@" ∧ b.length > 1 then some ⟨some key, some (strDrop b 1)⟩
        else none
      | none => none
    | _ => none

/-- One runner entry of the router (`router.RunnerEntry`); the runner
handle itself is opaque and omitted. -/
structure RunnerEntry where
  engine : String
  available : Bool
  issue : Option String
deriving DecidableEq, Repr

/-- The engine router (`router.AutoRouter`): the configured entries and the
default engine. -/
structure AutoRouter where
  entries : List RunnerEntry
  default_engine : String
deriving DecidableEq, Repr

/-- The configured engine ids, in entry order. -/
def AutoRouter.engineIds (r : AutoRouter) : List String :=
  r.entries.map (fun e => e.engine)

/-- Modelled from the spec: `AutoRouter.entry_for` returns the runner entry
of the engine owning the resume token (router.py is not part of the
sources; the spec pins the engine to the token's owning session). -/
def AutoRouter.entryFor (r : AutoRouter) (tok : ResumeToken) : Option RunnerEntry :=
  r.entries.find? (fun e => e.engine = tok.engine)

/-- Modelled from the spec: `AutoRouter.entry_for_engine` returns the entry
of the explicitly requested engine, falling back to the router default. -/
def AutoRouter.entryForEngine (r : AutoRouter) (engineOverride : Option String) :
    Option RunnerEntry :=
  r.entries.find? (fun e => e.engine = engineOverride.getD r.default_engine)

/-- Modelled from the spec: a resume line is written by an engine runner
and recognised by its `is_resume_line`; it is embedded here as a single
token `resume:<engine>:<value>` for a configured engine. -/
def parseResumeWord (engineIds : List String) (tok : String) : Option ResumeToken :=
  if strStartsWith tok "resume:" then
    match strSplitOnChar ':' (strDrop tok 7) with
    | [e, v] => if e ∈ engineIds ∧ v ≠ "" then some ⟨e, v⟩ else none
    | _ => none
  else none

/-- Modelled from the spec: `AutoRouter.resolve_resume` asks each runner to
match a resume line in the prompt or in the reply text. -/
def AutoRouter.resolveResume (r : AutoRouter) (prompt : String)
    (replyText : Option String) : Option ResumeToken :=
  (wordsOf prompt ++ (replyText.map wordsOf).getD []).findSome?
    (parseResumeWord r.engineIds)

/-- The resolver output (`transport_runtime.ResolvedMessage`). -/
structure ResolvedMessage where
  prompt : String
  resume_token : Option ResumeToken
  engine_override : Option String
  context : Option RunContext
deriving DecidableEq, Repr

/-- The runner resolution output (`transport_runtime.ResolvedRunner`); the
runner handle is opaque and omitted. -/
structure ResolvedRunner where
  engine : String
  available : Bool
  issue : Option String
deriving DecidableEq, Repr

/-- The slice of `transport_runtime.TransportRuntime` that the resolver
reads: the router and the project table. -/
structure TransportRuntime where
  router : AutoRouter
  projects : ProjectsConfig
deriving DecidableEq, Repr

/-- Embedding of `TransportRuntime.resolve_message`. -/
def TransportRuntime.resolveMessage (rt : TransportRuntime) (text : String)
    (replyText : Option String) (chatId : Option Int) : ResolvedMessage :=
  let directives := parseDirectives text rt.router.engineIds rt.projects
  let replyCtx := parseContextLine replyText rt.projects
  let resumeToken := rt.router.resolveResume directives.prompt replyText
  let chatProject := rt.projects.projectForChat chatId
  match resumeToken with
  | some tok =>
    let context : Option RunContext :=
      match replyCtx with
      | some c => some c
      | none => chatProject.map (fun p => ⟨some p, none⟩)
    ⟨directives.prompt, some tok, none, context⟩
  | none =>
    match replyCtx with
    | some c =>
      let engineOverride : Option String :=
        match c.project with
        | some pk => (rt.projects.get pk).bind (fun proj => proj.default_engine)
        | none => none
      ⟨directives.prompt, none, engineOverride, some c⟩
    | none =>
      let projectKey : Option String :=
        match directives.project with
        | some p => some p
        | none =>
          match chatProject with
          | some cp => some cp
          | none => rt.projects.default_project
      let context : Option RunContext :=
        if projectKey.isSome ∨ directives.branch.isSome then
          some ⟨projectKey, directives.branch⟩
        else none
      let engineOverride : Option String :=
        match directives.engine with
        | some e => some e
        | none => projectKey.bind (fun pk =>
            (rt.projects.get pk).bind (fun proj => proj.default_engine))
      ⟨directives.prompt, none, engineOverride, context⟩

/-- Embedding of `TransportRuntime.resolve_runner`: a resume token routes
through `entry_for` (its owning engine), otherwise the explicit override or
the router default is used. -/
def TransportRuntime.resolveRunner (rt : TransportRuntime)
    (resumeToken : Option ResumeToken) (engineOverride : Option String) :
    Option ResolvedRunner :=
  let entry :=
    match resumeToken with
    | some tok => rt.router.entryFor tok
    | none => rt.router.entryForEngine engineOverride
  entry.map (fun e => ⟨e.engine, e.available, e.issue⟩)

/-! Embedding of `render.py`: the pure renderers and the progress tracker. -/

/-- A dynamically typed Python value as found in `Action.detail` maps. -/
inductive PyVal where
  | int (n : ℤ)
  | bool (b : Bool)
  | str (s : String)
  | pynone
  | list (xs : List PyVal)
  | dict (xs : List (String × PyVal))

/-- Python `isinstance(v, int)`; note that Python `bool` is a subclass of
`int`. -/
def PyVal.isInstInt : PyVal → Bool
  | .int _ => true
  | .bool _ => true
  | _ => false

/-- The integer value of a Python int (with `True = 1`, `False = 0`). -/
def PyVal.asInt : PyVal → ℤ
  | .int n => n
  | .bool b => cond b 1 0
  | _ => 0

/-- Python `str(v)` for the values interpolated into rendered lines. -/
def PyVal.pyStr : PyVal → String
  | .int n => toString n
  | .bool b => cond b "True" "False"
  | .str s => s
  | .pynone => "None"
  | .list _ => "<list>"
  | .dict _ => "<dict>"

/-- Python `dict.get(key)` on an embedded detail map. -/
def detailGet (d : List (String × PyVal)) (k : String) : Option PyVal :=
  (d.find? (fun e => e.1 = k)).map (fun e => e.2)

/-- An action streamed by an engine (`model.Action`); `detail` is the
engine-supplied detail map. -/
structure Action where
  id : String
  kind : String
  title : String
  detail : List (String × PyVal)

/-- The tagged event stream consumed by the renderer
(`model.TakopiEvent`): `started` events, action events with a phase
string and an optional ok flag, and other events the renderer ignores. -/
inductive TakopiEvent where
  | started (resume : Option ResumeToken) (title : Option String)
  | actionEv (action : Action) (phase : String) (ok : Option Bool)
  | otherEv

def STATUS_RUNNING : String := "▸"
def STATUS_UPDATE : String := "↻"
def STATUS_DONE : String := "✓"
def STATUS_FAIL : String := "✗"
def MAX_PROGRESS_CMD_LEN : ℕ := 300
def MAX_FILE_CHANGES_INLINE : ℕ := 3

/-- Embedding of `render.action_status_symbol`. -/
def actionStatusSymbol (action : Action) (completed : Bool) (ok : Option Bool) :
    String :=
  if ¬completed then STATUS_RUNNING
  else
    match ok with
    | some b => if b then STATUS_DONE else STATUS_FAIL
    | none =>
      match detailGet action.detail "exit_code" with
      | some v => if v.isInstInt ∧ v.asInt ≠ 0 then STATUS_FAIL else STATUS_DONE
      | none => STATUS_DONE

/-- Embedding of `render.action_exit_suffix`. -/
def actionExitSuffix (action : Action) : String :=
  match detailGet action.detail "exit_code" with
  | some v =>
    if v.isInstInt ∧ v.asInt ≠ 0 then " (exit " ++ v.pyStr ++ ")" else ""
  | none => ""

/-- Embedding of `render.format_changed_file_path`; the relativisation of
absolute paths against the process working directory (an impure
`Path.cwd()` collaborator) is omitted. -/
def formatChangedFilePath (path : String) : String :=
  let raw := strTrim path
  let raw := if strStartsWith raw "./" then strDrop raw 2 else raw
  "`" ++ raw ++ "`"

/-- Greedy word-prefix selection used by the shortening model: keep words
while the joined text plus a one-character placeholder fits the width. -/
def shortenPrefix (ws : List String) (width : ℕ) (acc : String) : String :=
  match ws with
  | [] => acc
  | w :: rest =>
    let cand := if acc = "" then w else acc ++ " " ++ w
    if cand.length + 1 ≤ width then shortenPrefix rest width cand else acc

/-- Modelled from Python's `textwrap.shorten` (a stdlib collaborator):
whitespace runs are collapsed; if the collapsed text fits the width it is
returned, otherwise the longest word prefix that fits together with the
`…` placeholder is kept. -/
def textwrapShorten (s : String) (width : ℕ) : String :=
  let collapsed := strJoin " " (wordsOf s)
  if collapsed.length ≤ width then collapsed
  else
    let p := shortenPrefix (wordsOf s) width ""
    p ++ "…"

/-- Embedding of `render.shorten`. -/
def shorten (text : String) (width : Option ℕ) : String :=
  match width with
  | none => text
  | some w => textwrapShorten text w

def FILE_CHANGE_VERB : List (String × String) :=
  [("add", "added"), ("delete", "deleted"), ("update", "updated")]

/-- The verb for a file-change kind value, defaulting to `updated`. -/
def fileChangeVerb (kind : Option PyVal) : String :=
  match kind with
  | some (.str k) => (((FILE_CHANGE_VERB.find? (fun e => e.1 = k)).map
      (fun e => e.2)).getD "updated")
  | _ => "updated"

/-- The rendered per-file change fragments of a `changes` detail list. -/
def renderedChanges (changes : List PyVal) : List String :=
  changes.filterMap (fun raw =>
    match raw with
    | .dict d =>
      match detailGet d "path" with
      | some (.str p) =>
        if p ≠ "" then
          some (fileChangeVerb (detailGet d "kind") ++ " " ++ formatChangedFilePath p)
        else none
      | _ => none
    | _ => none)

/-- Embedding of `render.format_file_change_title`. -/
def formatFileChangeTitle (action : Action) (commandWidth : Option ℕ) : String :=
  let fallback := "files: " ++ shorten action.title commandWidth
  match detailGet action.detail "changes" with
  | some (.list changes) =>
    if changes.isEmpty then fallback
    else
      let rendered := renderedChanges changes
      if rendered ≠ [] then
        let rendered :=
          if rendered.length > MAX_FILE_CHANGES_INLINE then
            rendered.take MAX_FILE_CHANGES_INLINE ++
              ["…(" ++ toString (rendered.length - MAX_FILE_CHANGES_INLINE) ++ " more)"]
          else rendered
        "files: " ++ shorten (strJoin ", " rendered) commandWidth
      else fallback
  | _ => fallback

/-- Embedding of `render.format_action_title`. -/
def formatActionTitle (action : Action) (commandWidth : Option ℕ) : String :=
  if action.kind = "command" then "`" ++ shorten action.title commandWidth ++ "`"
  else if action.kind = "tool" then "tool: " ++ shorten action.title commandWidth
  else if action.kind = "web_search" then "searched: " ++ shorten action.title commandWidth
  else if action.kind = "file_change" then formatFileChangeTitle action commandWidth
  else shorten action.title commandWidth

/-- Embedding of `render.phase_status_and_suffix` on the fields of an
action event. -/
def phaseStatusAndSuffix (action : Action) (phase : String) (ok : Option Bool) :
    String × String :=
  if phase = "completed" then
    (actionStatusSymbol action true ok, actionExitSuffix action)
  else if phase = "updated" then (STATUS_UPDATE, "")
  else (STATUS_RUNNING, "")

/-- The mutable state of `render.ExecProgressRenderer`: the three parallel
bounded deques of the recent-actions ring, the step counter, the
outstanding-start counts (a dict observed only through `get`/`pop` with
defaults, embedded as a total function), and the session metadata. -/
structure ExecProgressRenderer where
  maxActions : ℕ
  commandWidth : Option ℕ
  recentActions : List String
  recentActionIds : List String
  recentActionCompleted : List Bool
  actionCount : ℕ
  startedCounts : String → ℕ
  resumeToken : Option ResumeToken
  sessionTitle : Option String
  showTitle : Bool

/-- `ExecProgressRenderer.__init__` with the given ring capacity. -/
def ExecProgressRenderer.init (maxActions : ℕ) : ExecProgressRenderer :=
  ⟨maxActions, some MAX_PROGRESS_CMD_LEN, [], [], [], 0, fun _ => 0, none, none, false⟩

/-- Pointwise update of the outstanding-start counts. -/
def updateCount (f : String → ℕ) (k : String) (v : ℕ) : String → ℕ :=
  fun j => if j = k then v else f j

/-- The rightmost ring index holding the given id with its completed flag
unset — the scan of `ExecProgressRenderer._append_action`. -/
def findActiveIdx : List String → List Bool → String → Option ℕ
  | i :: is, c :: cs, aid =>
    match findActiveIdx is cs aid with
    | some n => some (n + 1)
    | none => if i = aid ∧ c = false then some 0 else none
  | _, _, _ => none

/-- Embedding of `ExecProgressRenderer._append_action`: overwrite the
rightmost non-completed entry for the id in place, else evict the oldest
entry when full and append. -/
def ExecProgressRenderer.appendAction (st : ExecProgressRenderer) (aid : String)
    (completed : Bool) (line : String) : ExecProgressRenderer :=
  match findActiveIdx st.recentActionIds st.recentActionCompleted aid with
  | some i =>
    { st with
      recentActions := st.recentActions.set i line
      recentActionCompleted :=
        if completed then st.recentActionCompleted.set i true
        else st.recentActionCompleted }
  | none =>
    let st1 :=
      if st.recentActions.length ≥ st.maxActions then
        { st with
          recentActions := st.recentActions.drop 1
          recentActionIds := st.recentActionIds.drop 1
          recentActionCompleted := st.recentActionCompleted.drop 1 }
      else st
    { st1 with
      recentActions := st1.recentActions ++ [line]
      recentActionIds := st1.recentActionIds ++ [aid]
      recentActionCompleted := st1.recentActionCompleted ++ [completed] }

/-- The step-counter bookkeeping of `ExecProgressRenderer.note_event`
(the two sequential blocks on `action_count`/`_started_counts`): the first
block handles non-completed phases, the second balances completions. -/
def ExecProgressRenderer.bumpCounters (st : ExecProgressRenderer)
    (actionId : String) (phase : String) : ExecProgressRenderer :=
  let completed := phase = "completed"
  let startedCount := st.startedCounts actionId
  let st1 :=
    if completed then st
    else if startedCount = 0 then
      { st with
        actionCount := st.actionCount + 1
        startedCounts := updateCount st.startedCounts actionId 1 }
    else if phase = "started" then
      { st with startedCounts := updateCount st.startedCounts actionId (startedCount + 1) }
    else
      { st with startedCounts := updateCount st.startedCounts actionId startedCount }
  if completed then
    let count := st1.startedCounts actionId
    if count = 0 then { st1 with actionCount := st1.actionCount + 1 }
    else if count = 1 then
      { st1 with startedCounts := updateCount st1.startedCounts actionId 0 }
    else
      { st1 with startedCounts := updateCount st1.startedCounts actionId (count - 1) }
  else st1

/-- The rendered ring line of `ExecProgressRenderer.note_event`: the
status glyph (an in-flight update shows `↻`), the formatted title, and the
exit-code suffix on completion. -/
def ExecProgressRenderer.noteLine (st : ExecProgressRenderer) (action : Action)
    (phase : String) (ok : Option Bool) : String :=
  let completed := phase = "completed"
  let startedCount := st.startedCounts action.id
  let isUpdate := if completed then false else (phase = "updated" ∨ startedCount > 0)
  let status :=
    if isUpdate ∧ ¬completed then STATUS_UPDATE
    else actionStatusSymbol action completed ok
  status ++ " " ++ formatActionTitle action st.commandWidth ++
    (if completed then actionExitSuffix action else "")

/-- Embedding of `ExecProgressRenderer.note_event`; returns the handled
flag together with the updated state. -/
def ExecProgressRenderer.noteEvent (st : ExecProgressRenderer) (ev : TakopiEvent) :
    Bool × ExecProgressRenderer :=
  match ev with
  | .started resume title =>
    (true, { st with resumeToken := resume, sessionTitle := title })
  | .otherEv => (false, st)
  | .actionEv action phase ok =>
    if action.kind = "turn" then (false, st)
    else if action.id = "" then (false, st)
    else
      let actionId := action.id
      let completed := phase = "completed"
      let st2 := st.bumpCounters actionId phase
      let line := st.noteLine action phase ok
      (true, st2.appendAction actionId completed line)

/-- Feed a sequence of events to the renderer. -/
def ExecProgressRenderer.noteEvents (st : ExecProgressRenderer)
    (evs : List TakopiEvent) : ExecProgressRenderer :=
  evs.foldl (fun s e => (s.noteEvent e).2) st

/-- The action id an event contributes to the renderer bookkeeping, if
any: action events that are not turn markers and carry a non-empty id. -/
def eventActionId : TakopiEvent → Option String
  | .actionEv action _ _ =>
    if action.kind = "turn" then none
    else if action.id = "" then none
    else some action.id
  | _ => none

/-- The stream of tracked action ids of an event sequence, in order. -/
def eventIds (evs : List TakopiEvent) : List String :=
  evs.filterMap eventActionId

/-- Whether an event is a tracked action event for the given id. -/
def eventRelevantFor (aid : String) (ev : TakopiEvent) : Bool :=
  eventActionId ev = some aid

/-- Whether an event is a tracked completed action event for the given id. -/
def eventCompletedFor (aid : String) (ev : TakopiEvent) : Bool :=
  match ev with
  | .actionEv action phase _ =>
    eventActionId (.actionEv action phase none) = some aid ∧ phase = "completed"
  | _ => false

/-- No tracked event for the given id occurs in the list. -/
def relevantFree (aid : String) (evs : List TakopiEvent) : Bool :=
  evs.all (fun e => !eventRelevantFor aid e)

/-- Well-formed lifecycle for one id: a completed event for the id is the
last tracked event for that id. -/
def wfFor (aid : String) : List TakopiEvent → Bool
  | [] => true
  | e :: rest =>
    (if eventCompletedFor aid e then relevantFree aid rest else true) && wfFor aid rest

/-- Well-formed event sequence: every id follows the well-formed
lifecycle. -/
def wfEvents (evs : List TakopiEvent) : Bool :=
  (eventIds evs).all (fun aid => wfFor aid evs)

/-- Number of non-completed ring entries holding the given id, over the
parallel id/completed lists. -/
def countActive : List String → List Bool → String → ℕ
  | i :: is, c :: cs, aid =>
    (if i = aid ∧ c = false then 1 else 0) + countActive is cs aid
  | _, _, _ => 0

/-! Embedding of the `telegram/bridge.py` helpers the claims are about. -/

/-- The persisted per-thread snapshot (`TopicThreadSnapshot`); only the
fields read by the rename helper are embedded. -/
structure TopicThreadSnapshot where
  context : Option RunContext
  topic_title : Option String
deriving DecidableEq, Repr

/-- Modelled from the spec: `TransportRuntime.project_alias_for_key` (the
method lives outside the embedded resolver slice) maps a project key to
its configured alias, falling back to the key itself. -/
def projectAliasForKey (ps : ProjectsConfig) (key : String) : String :=
  ((ps.get key).map (fun p => p.projAlias)).getD key

/-- Embedding of `bridge._topic_title`: `alias @branch`, `alias`,
`@branch`, or the fallback `topic`.  Python truthiness of the branch and
alias strings is preserved (`None` and the empty string are falsy). -/
def topicTitleFor (ps : ProjectsConfig) (context : RunContext) : String :=
  let projectStr :=
    match context.project with
    | some k => projectAliasForKey ps k
    | none => ""
  let branchStr := (context.branch.getD "")
  if branchStr ≠ "" then
    if projectStr ≠ "" then projectStr ++ " @" ++ branchStr
    else "@" ++ branchStr
  else if projectStr ≠ "" then projectStr
  else "topic"

/-- The observable effects of one `bridge._maybe_rename_topic` call: the
titles passed to `edit_forum_topic`, and the `(context, topic_title)` pair
written through `store.set_context`, if any. -/
structure RenameOutcome where
  renameCalls : List String
  storeWrite : Option (RunContext × String)
deriving DecidableEq, Repr

/-- Embedding of `bridge._maybe_rename_topic`.  `snapshotArg` is the
optional snapshot handed in by the caller, `storeSnapshot` the value
`store.get_thread` would return, and `renameOk` whether the
`edit_forum_topic` transport call reports success. -/
def maybeRenameTopic (ps : ProjectsConfig) (snapshotArg : Option TopicThreadSnapshot)
    (storeSnapshot : Option TopicThreadSnapshot) (context : RunContext)
    (renameOk : Bool) : RenameOutcome :=
  let title := topicTitleFor ps context
  let snapshot :=
    match snapshotArg with
    | some s => some s
    | none => storeSnapshot
  match snapshot with
  | some s =>
    if s.topic_title = some title then ⟨[], none⟩
    else if renameOk then ⟨[title], some (context, title)⟩
    else ⟨[title], none⟩
  | none =>
    if renameOk then ⟨[title], some (context, title)⟩
    else ⟨[title], none⟩

/-- One published bot command (`{"command": …, "description": …}`). -/
structure BotCommand where
  command : String
  description : String
deriving DecidableEq, Repr

def MAX_BOT_COMMANDS : ℕ := 100

def cancelCommand : BotCommand := ⟨"cancel", "cancel run"⟩

def fileCommand : BotCommand := ⟨"file", "upload or fetch files"⟩

/-- The seen-set fold over one stage of `bridge._build_bot_commands`: each
candidate is lowercased elsewhere; here a candidate is skipped when its
command is already seen or when it fails the validity check. -/
def commandStage (validId : String → Bool) (checkValid : Bool) :
    List BotCommand → List BotCommand × List String → List BotCommand × List String
  | [], acc => acc
  | c :: rest, (cs, seen) =>
    if c.command ∈ seen then commandStage validId checkValid rest (cs, seen)
    else if checkValid ∧ ¬validId c.command then
      commandStage validId checkValid rest (cs, seen)
    else commandStage validId checkValid rest (cs ++ [c], seen ++ [c.command])

/-- The engine entries of the command menu. -/
def engineCommands (engines : List String) : List BotCommand :=
  engines.map (fun e => ⟨strToLower e, "use agent: " ++ strToLower e⟩)

/-- The project-alias entries of the command menu. -/
def aliasCommands (aliases : List String) : List BotCommand :=
  aliases.map (fun a => ⟨strToLower a, "work on: " ++ strToLower a⟩)

/-- The plugin entries of the command menu; a falsy (empty) backend
description falls back to `command: <id>`. -/
def pluginCommands (plugins : List (String × String)) : List BotCommand :=
  plugins.map (fun p =>
    ⟨strToLower p.1, if p.2 = "" then "command: " ++ strToLower p.1 else p.2⟩)

/-- Embedding of the assembly part of `bridge._build_bot_commands` (before
the 100-entry cap): engines, then valid project aliases, then valid plugin
command ids, then the `file` and `cancel` built-ins, deduplicated by
command with first occurrence kept.  `validId` embeds `ids.is_valid_id`;
engines are not validity-checked, matching the source. -/
def assembleBotCommands (validId : String → Bool) (engines aliases : List String)
    (plugins : List (String × String)) (includeFile : Bool) : List BotCommand :=
  let s1 := commandStage validId false (engineCommands engines) ([], [])
  let s2 := commandStage validId true (aliasCommands aliases) s1
  let s3 := commandStage validId true (pluginCommands plugins) s2
  let s4 :=
    if includeFile ∧ "file" ∉ s3.2 then (s3.1 ++ [fileCommand], s3.2 ++ ["file"])
    else s3
  if "cancel" ∉ s4.2 then s4.1 ++ [cancelCommand] else s4.1

/-- Embedding of the cap of `bridge._build_bot_commands`: truncate to 100
entries and, if the `cancel` entry was dropped, replace the last surviving
entry by it. -/
def capBotCommands (commands : List BotCommand) : List BotCommand :=
  if commands.length > MAX_BOT_COMMANDS then
    let t := commands.take MAX_BOT_COMMANDS
    if t.any (fun c => c.command = "cancel") then t
    else t.set (t.length - 1) cancelCommand
  else commands

/-- Embedding of `bridge._build_bot_commands`. -/
def buildBotCommands (validId : String → Bool) (engines aliases : List String)
    (plugins : List (String × String)) (includeFile : Bool) : List BotCommand :=
  capBotCommands (assembleBotCommands validId engines aliases plugins includeFile)

/-! Embedding of the media-group coalescer of `bridge.run_main_loop` /
`flush_media_group`.  Arrivals are embedded by their arrival times,
measured in ticks of `1/D` seconds for an arbitrary positive `D`, so that
the 1.0-second debounce sleep lasts `D` ticks; any burst at rational
arrival times is captured by a suitable `D`.  The group token after the
arrivals up to time `t` equals the number of arrivals not later than `t`,
and the state's message list holds exactly those arrivals. -/

/-- The group token at time `t`: one increment per arrival not later than
`t`. -/
def tokenAt (ts : List ℕ) (t : ℕ) : ℕ :=
  (ts.filter (fun x => x ≤ t)).length

/-- The wake-up loop of `bridge.flush_media_group`: at each wake the token
is compared with the value read one debounce-sleep earlier; on a match the
coroutine flushes at that wake time, otherwise it sleeps again.  The fuel
argument bounds the number of wake-ups; the flush theorem shows
`ts.length + 1` wake-ups always suffice. -/
def flushLoop (ts : List ℕ) (D : ℕ) : ℕ → ℕ → ℕ → Option ℕ
  | 0, _, _ => none
  | fuel + 1, wake, tok =>
    if tokenAt ts wake = tok then some wake
    else flushLoop ts D fuel (wake + D) (tokenAt ts wake)

/-- The time at which the single flush coroutine of a media group fires:
it is started at the first arrival, reads the token, and wakes after every
debounce sleep of `D` ticks. -/
def flushTime (ts : List ℕ) (D : ℕ) : Option ℕ :=
  match ts with
  | [] => none
  | t1 :: _ => flushLoop ts D (ts.length + 1) (t1 + D) (tokenAt ts t1)

/-- One handler invocation of the coalescer: the flush time, the messages
handed to `_handle_media_group`, and the per-group state visible to the
handler (`flush_media_group` deletes `media_groups[key]` before awaiting
the handler, so it is `none`). -/
structure FlushInvocation where
  time : ℕ
  messages : List ℕ
  stateAtHandler : Option (List ℕ)
deriving DecidableEq, Repr

/-- Embedding of `bridge.flush_media_group` for one media-group burst: the
handler is invoked at most once, with the messages accumulated up to the
flush time and with the per-group state already deleted. -/
def flushMediaGroup (ts : List ℕ) (D : ℕ) : Option FlushInvocation :=
  (flushTime ts D).map (fun w => ⟨w, ts.filter (fun x => x ≤ w), none⟩)

/-- Successive arrivals are strictly ordered and strictly less than one
debounce sleep apart. -/
def gapsOk (D : ℕ) : List ℕ → Bool
  | a :: b :: rest => (a < b ∧ b < a + D) && gapsOk D (b :: rest)
  | _ => true

/-! Theorems about the resolver. -/

/-- The context-source precedence the resolver actually implements when no
resume token is detected, written out source by source: the reply context
line, then the in-message directives, then the chat-default project, then
the configured default project, then none. -/
def contextPrecedence (replyCtx : Option RunContext) (d : Directives)
    (chatProject defaultProject : Option String) : Option RunContext :=
  match replyCtx with
  | some c => some c
  | none =>
    let projectKey :=
      match d.project with
      | some p => some p
      | none =>
        match chatProject with
        | some cp => some cp
        | none => defaultProject
    if projectKey.isSome ∨ d.branch.isSome then some ⟨projectKey, d.branch⟩
    else none

/-- A concrete runtime: one engine `codex`, projects `proj` and `other`,
no default project, no chat map. -/
def rtPlain : TransportRuntime :=
  ⟨⟨[⟨"codex", true, none⟩], "codex"⟩,
   ⟨[("proj", ⟨"proj", none⟩), ("other", ⟨"other", none⟩)], none, []⟩⟩

/-- A concrete runtime: one engine `codex`, project `proj` bound to chat
42 as its chat-default project. -/
def rtChat : TransportRuntime :=
  ⟨⟨[⟨"codex", true, none⟩], "codex"⟩,
   ⟨[("proj", ⟨"proj", none⟩)], none, [(42, "proj")]⟩⟩

/-- C1 (counterexample): a message carrying explicit `/proj @feat`
directives, replying to a message whose context line names project
`other`, with no resume token detected — `resolve_message` returns the
reply context, not the directive context. -/
theorem resolveMessage_reply_ctx_beats_directives_cex :
    (parseDirectives "/proj @feat hi" rtPlain.router.engineIds rtPlain.projects).project
        = some "proj" ∧
    (parseDirectives "/proj @feat hi" rtPlain.router.engineIds rtPlain.projects).branch
        = some "feat" ∧
    parseContextLine (some "other") rtPlain.projects = some ⟨some "other", none⟩ ∧
    rtPlain.router.resolveResume
        (parseDirectives "/proj @feat hi" rtPlain.router.engineIds rtPlain.projects).prompt
        (some "other") = none ∧
    (rtPlain.resolveMessage "/proj @feat hi" (some "other") none).context
        = some ⟨some "other", none⟩ ∧
    (rtPlain.resolveMessage "/proj @feat hi" (some "other") none).context
        ≠ some ⟨some "proj", some "feat"⟩ := by
  decide

/-- C1 (amended): when no resume token is detected, the context chosen by
`resolve_message` matches the earliest non-empty source in the fixed order
reply context line > directives > chat-default project > configured
default project > none. -/
theorem resolveMessage_context_precedence (rt : TransportRuntime) (text : String)
    (replyText : Option String) (chatId : Option Int)
    (h : rt.router.resolveResume
        (parseDirectives text rt.router.engineIds rt.projects).prompt replyText = none) :
    (rt.resolveMessage text replyText chatId).context =
      contextPrecedence (parseContextLine replyText rt.projects)
        (parseDirectives text rt.router.engineIds rt.projects)
        (rt.projects.projectForChat chatId) rt.projects.default_project := by
  simp only [TransportRuntime.resolveMessage, contextPrecedence, h]
  cases parseContextLine replyText rt.projects <;> rfl

/-- Witness for `resolveMessage_context_precedence` at a concrete input
with a reply context line and competing directives. -/
theorem resolveMessage_context_precedence_witness :
    (rtPlain.resolveMessage "/proj @feat hi" (some "other") none).context =
      contextPrecedence (parseContextLine (some "other") rtPlain.projects)
        (parseDirectives "/proj @feat hi" rtPlain.router.engineIds rtPlain.projects)
        (rtPlain.projects.projectForChat none) rtPlain.projects.default_project :=
  resolveMessage_context_precedence rtPlain "/proj @feat hi" (some "other") none
    (by decide)

/-- C3: whenever `resolve_message` detects a resume token, the returned
message carries no engine override — an explicit engine directive is
dropped — and `resolve_runner` called with that resume token selects the
runner entry of the token's owning engine. -/
theorem resolveMessage_resume_drops_engine_override (rt : TransportRuntime)
    (text : String) (replyText : Option String) (chatId : Option Int)
    (tok : ResumeToken)
    (h : (rt.resolveMessage text replyText chatId).resume_token = some tok) :
    (rt.resolveMessage text replyText chatId).engine_override = none ∧
    ∀ engineOverride r, rt.resolveRunner (some tok) engineOverride = some r →
      r.engine = tok.engine := by
  constructor
  · simp only [TransportRuntime.resolveMessage] at h ⊢
    cases hres : rt.router.resolveResume
        (parseDirectives text rt.router.engineIds rt.projects).prompt replyText with
    | some t => simp [hres]
    | none =>
      rw [hres] at h
      cases hctx : parseContextLine replyText rt.projects with
      | some c => rw [hctx] at h; simp at h
      | none => rw [hctx] at h; simp at h
  · intro engineOverride r hr
    simp only [TransportRuntime.resolveRunner, AutoRouter.entryFor,
      Option.map_eq_some'] at hr
    obtain ⟨e, hfind, hre⟩ := hr
    have he := List.find?_some hfind
    simp only [decide_eq_true_eq] at he
    rw [← hre, he]

/-- Witness for `resolveMessage_resume_drops_engine_override`: a reply
containing `resume:codex:abc` pins the engine even though the text carries
an explicit `/codex` directive. -/
theorem resolveMessage_resume_drops_engine_override_witness :
    (rtPlain.resolveMessage "/codex do it" (some "resume:codex:abc") none).engine_override
        = none ∧
    (⟨"codex", true, none⟩ : ResolvedRunner).engine =
      (⟨"codex", "abc"⟩ : ResumeToken).engine :=
  ⟨(resolveMessage_resume_drops_engine_override rtPlain "/codex do it"
      (some "resume:codex:abc") none ⟨"codex", "abc"⟩ (by decide)).1,
   (resolveMessage_resume_drops_engine_override rtPlain "/codex do it"
      (some "resume:codex:abc") none ⟨"codex", "abc"⟩ (by decide)).2
      (some "codex") ⟨"codex", true, none⟩ (by decide)⟩

/-- C5: when `resolve_message` returns a resume token and the reply text
yields no context line, the returned context is the chat-default project
with no branch, or none; in particular no branch is invented. -/
theorem resolveMessage_resume_context_no_branch (rt : TransportRuntime)
    (text : String) (replyText : Option String) (chatId : Option Int)
    (tok : ResumeToken)
    (h1 : (rt.resolveMessage text replyText chatId).resume_token = some tok)
    (h2 : parseContextLine replyText rt.projects = none) :
    (rt.resolveMessage text replyText chatId).context =
      (rt.projects.projectForChat chatId).map (fun p => ⟨some p, none⟩) ∧
    ∀ c, (rt.resolveMessage text replyText chatId).context = some c →
      c.branch = none := by
  have hmain : (rt.resolveMessage text replyText chatId).context =
      (rt.projects.projectForChat chatId).map
        (fun p => (⟨some p, none⟩ : RunContext)) := by
    simp only [TransportRuntime.resolveMessage] at h1 ⊢
    cases hres : rt.router.resolveResume
        (parseDirectives text rt.router.engineIds rt.projects).prompt replyText with
    | some t => simp [hres, h2]
    | none =>
      rw [hres] at h1
      cases hctx : parseContextLine replyText rt.projects with
      | some c => rw [hctx] at h1; simp at h1
      | none => rw [hctx] at h1; simp at h1
  refine ⟨hmain, ?_⟩
  intro c hc
  rw [hmain] at hc
  cases hp : rt.projects.projectForChat chatId with
  | none => rw [hp] at hc; simp at hc
  | some p =>
    rw [hp] at hc
    simp at hc
    rw [← hc]

/-- Witness for `resolveMessage_resume_context_no_branch`: a resume reply
with no context line in a chat whose default project is `proj`. -/
theorem resolveMessage_resume_context_no_branch_witness :
    (rtChat.resolveMessage "more" (some "resume:codex:abc") (some 42)).context =
      (rtChat.projects.projectForChat (some 42)).map (fun p => ⟨some p, none⟩) :=
  (resolveMessage_resume_context_no_branch rtChat "more" (some "resume:codex:abc")
    (some 42) ⟨"codex", "abc"⟩ (by decide) (by decide)).1

/-! Theorems about the progress renderer ring (C2). -/

/-- The ring bookkeeping invariant: the three parallel deques have equal
lengths and each id has at most one non-completed entry. -/
def RingInv (st : ExecProgressRenderer) : Prop :=
  st.recentActionIds.length = st.recentActionCompleted.length ∧
  st.recentActions.length = st.recentActionIds.length ∧
  ∀ aid, countActive st.recentActionIds st.recentActionCompleted aid ≤ 1

theorem findActiveIdx_none_countActive {ids : List String} {comp : List Bool}
    {aid : String} (h : findActiveIdx ids comp aid = none) :
    countActive ids comp aid = 0 := by
  induction ids generalizing comp with
  | nil => cases comp <;> rfl
  | cons i is ih =>
    cases comp with
    | nil => rfl
    | cons c cs =>
      rw [findActiveIdx] at h
      rw [countActive]
      cases hrec : findActiveIdx is cs aid with
      | some n => rw [hrec] at h; exact absurd h (by simp)
      | none =>
        rw [hrec] at h
        have hhead : ¬(i = aid ∧ c = false) := by
          intro hc
          rw [if_pos hc] at h
          exact absurd h (by simp)
        rw [if_neg hhead, ih hrec]

theorem countActive_set_true {comp : List Bool} (ids : List String) (k : ℕ)
    (aid : String) :
    countActive ids (comp.set k true) aid ≤ countActive ids comp aid := by
  induction ids generalizing comp k with
  | nil => cases comp <;> cases k <;> simp [countActive]
  | cons i is ih =>
    cases comp with
    | nil => simp [countActive]
    | cons c cs =>
      cases k with
      | zero =>
        rw [List.set_cons_zero, countActive, countActive]
        have : (if i = aid ∧ true = false then 1 else 0) = 0 := by simp
        rw [this]
        exact Nat.add_le_add (Nat.zero_le _) (Nat.le_refl _)
      | succ k =>
        rw [List.set_cons_succ, countActive, countActive]
        exact Nat.add_le_add (Nat.le_refl _) (ih k)

theorem countActive_append {ids : List String} {comp : List Bool}
    (hlen : ids.length = comp.length) (a : String) (b : Bool) (aid : String) :
    countActive (ids ++ [a]) (comp ++ [b]) aid =
      countActive ids comp aid + (if a = aid ∧ b = false then 1 else 0) := by
  induction ids generalizing comp with
  | nil =>
    cases comp with
    | nil => simp [countActive]
    | cons c cs => simp at hlen
  | cons i is ih =>
    cases comp with
    | nil => simp at hlen
    | cons c cs =>
      have hlen2 : is.length = cs.length := by
        simp only [List.length_cons] at hlen
        omega
      rw [List.cons_append, List.cons_append]
      rw [show countActive (i :: (is ++ [a])) (c :: (cs ++ [b])) aid =
        (if i = aid ∧ c = false then 1 else 0) + countActive (is ++ [a]) (cs ++ [b]) aid
        from rfl]
      rw [show countActive (i :: is) (c :: cs) aid =
        (if i = aid ∧ c = false then 1 else 0) + countActive is cs aid from rfl]
      rw [ih hlen2]
      omega

theorem countActive_tail (ids : List String) (comp : List Bool) (aid : String) :
    countActive (ids.drop 1) (comp.drop 1) aid ≤ countActive ids comp aid := by
  cases ids with
  | nil => simp [countActive]
  | cons i is =>
    cases comp with
    | nil => simp [countActive]
    | cons c cs =>
      simp only [List.drop_one, List.tail_cons, countActive]
      exact Nat.le_add_left _ _

theorem appendAction_ringInv {st : ExecProgressRenderer} (h : RingInv st)
    (aid : String) (completed : Bool) (line : String) :
    RingInv (st.appendAction aid completed line) := by
  obtain ⟨hlen1, hlen2, hcnt⟩ := h
  unfold ExecProgressRenderer.appendAction
  cases hfind : findActiveIdx st.recentActionIds st.recentActionCompleted aid with
  | some i =>
    refine ⟨?_, ?_, ?_⟩
    · by_cases hc : completed <;> simp [hc, hlen1]
    · simp [hlen2]
    · intro q
      by_cases hc : completed
      · simp only [hc, if_pos]
        exact Nat.le_trans (countActive_set_true _ _ _) (hcnt q)
      · simp only [hc, if_neg, ite_false]
        exact hcnt q
  | none =>
    by_cases hfull : st.recentActions.length ≥ st.maxActions
    · simp only [hfull, if_pos]
      have hlen1d : (st.recentActionIds.drop 1).length =
          (st.recentActionCompleted.drop 1).length := by simp [hlen1]
      refine ⟨?_, ?_, ?_⟩
      · simp [hlen1]
      · simp [hlen2]
      · intro q
        rw [countActive_append hlen1d]
        by_cases hq : q = aid
        · subst hq
          have h0 : countActive st.recentActionIds st.recentActionCompleted q = 0 :=
            findActiveIdx_none_countActive hfind
          have hd : countActive (st.recentActionIds.drop 1)
              (st.recentActionCompleted.drop 1) q = 0 :=
            Nat.le_zero.mp (h0 ▸ countActive_tail _ _ _)
          rw [hd]
          split <;> simp
        · have hneq : ¬(aid = q ∧ completed = false) := fun hcc => hq hcc.1.symm
          rw [if_neg hneq, Nat.add_zero]
          exact Nat.le_trans (countActive_tail _ _ _) (hcnt q)
    · simp only [hfull, if_neg, ite_false]
      refine ⟨?_, ?_, ?_⟩
      · simp [hlen1]
      · simp [hlen2]
      · intro q
        rw [countActive_append hlen1]
        by_cases hq : q = aid
        · subst hq
          rw [findActiveIdx_none_countActive hfind]
          split <;> simp
        · have hneq : ¬(aid = q ∧ completed = false) := fun hcc => hq hcc.1.symm
          rw [if_neg hneq, Nat.add_zero]
          exact hcnt q

/-- The counter bookkeeping leaves the ring fields untouched. -/
theorem bumpCounters_ring (st : ExecProgressRenderer) (aid ph : String) :
    (st.bumpCounters aid ph).recentActions = st.recentActions ∧
    (st.bumpCounters aid ph).recentActionIds = st.recentActionIds ∧
    (st.bumpCounters aid ph).recentActionCompleted = st.recentActionCompleted ∧
    (st.bumpCounters aid ph).maxActions = st.maxActions := by
  unfold ExecProgressRenderer.bumpCounters
  by_cases h1 : ph = "completed" <;> by_cases h2 : st.startedCounts aid = 0 <;>
    by_cases h3 : ph = "started" <;> by_cases h4 : st.startedCounts aid = 1 <;>
      simp [h1, h2, h3, h4]

/-- A tracked action event updates the state by the counter bookkeeping
followed by the ring append. -/
theorem noteEvent_action_snd (st : ExecProgressRenderer) (a : Action) (ph : String)
    (okv : Option Bool) (hturn : ¬a.kind = "turn") (hid : ¬a.id = "") :
    (st.noteEvent (.actionEv a ph okv)).2 =
      (st.bumpCounters a.id ph).appendAction a.id (decide (ph = "completed"))
        (st.noteLine a ph okv) := by
  simp only [ExecProgressRenderer.noteEvent]
  rw [if_neg hturn, if_neg hid]

/-- `note_event` only changes the counters before handing the ring to
`_append_action`; the intermediate states share the ring fields. -/
theorem noteEvent_ringInv {st : ExecProgressRenderer} (h : RingInv st)
    (ev : TakopiEvent) : RingInv (st.noteEvent ev).2 := by
  obtain ⟨hlen1, hlen2, hcnt⟩ := h
  cases ev with
  | started resume title => exact ⟨hlen1, hlen2, hcnt⟩
  | otherEv => exact ⟨hlen1, hlen2, hcnt⟩
  | actionEv action phase ok =>
    by_cases hturn : action.kind = "turn"
    · have he : (st.noteEvent (.actionEv action phase ok)).2 = st := by
        simp [ExecProgressRenderer.noteEvent, hturn]
      rw [he]; exact ⟨hlen1, hlen2, hcnt⟩
    · by_cases hid : action.id = ""
      · have he : (st.noteEvent (.actionEv action phase ok)).2 = st := by
          simp [ExecProgressRenderer.noteEvent, hturn, hid]
        rw [he]; exact ⟨hlen1, hlen2, hcnt⟩
      · rw [noteEvent_action_snd st action phase ok hturn hid]
        have hb := bumpCounters_ring st action.id phase
        exact appendAction_ringInv
          ⟨by rw [hb.2.1, hb.2.2.1]; exact hlen1,
           by rw [hb.1, hb.2.1]; exact hlen2,
           fun q => by rw [hb.2.1, hb.2.2.1]; exact hcnt q⟩ _ _ _

theorem noteEvents_ringInv {st : ExecProgressRenderer} (h : RingInv st)
    (evs : List TakopiEvent) : RingInv (st.noteEvents evs) := by
  induction evs generalizing st with
  | nil => exact h
  | cons e rest ih => exact ih (noteEvent_ringInv h e)

/-- The first two events of the C2 counterexample run: a completed action
and then a fresh start for the same id. -/
def evCompletedA : TakopiEvent := .actionEv ⟨"a", "command", "x", []⟩ "completed" none

def evStartedA : TakopiEvent := .actionEv ⟨"a", "command", "y", []⟩ "started" none

/-- C2 (counterexample): after a completed event for id `a` followed by a
fresh start of `a`, the ring holds two entries for `a` — the new event was
appended rather than updating the existing (completed) entry in place. -/
theorem progress_ring_duplicate_id_cex :
    ((ExecProgressRenderer.init 5).noteEvents [evCompletedA, evStartedA]).recentActionIds
        = ["a", "a"] ∧
    ¬((ExecProgressRenderer.init 5).noteEvents
        [evCompletedA, evStartedA]).recentActionIds.Nodup := by
  decide

/-- C2 (amended): after any sequence of `note_event` calls every action id
occurs at most once among the non-completed entries of the ring, and a new
event for an id that still has a non-completed ring entry overwrites that
entry in place — the id sequence and the ring size are unchanged. -/
theorem progress_ring_active_unique :
    (∀ (n : ℕ) (evs : List TakopiEvent) (aid : String),
      countActive ((ExecProgressRenderer.init n).noteEvents evs).recentActionIds
        ((ExecProgressRenderer.init n).noteEvents evs).recentActionCompleted aid ≤ 1) ∧
    (∀ (st : ExecProgressRenderer) (aid : String) (completed : Bool) (line : String)
      (i : ℕ),
      findActiveIdx st.recentActionIds st.recentActionCompleted aid = some i →
      (st.appendAction aid completed line).recentActionIds = st.recentActionIds ∧
      (st.appendAction aid completed line).recentActions.length
        = st.recentActions.length) := by
  constructor
  · intro n evs aid
    exact (noteEvents_ringInv ⟨rfl, rfl, fun _ => by simp [countActive]⟩ evs).2.2 aid
  · intro st aid completed line i hfind
    unfold ExecProgressRenderer.appendAction
    rw [hfind]
    exact ⟨rfl, by simp⟩

/-- Witness for `progress_ring_active_unique` at concrete inputs: a short
run of events, and an in-place update on the state reached after one
started event. -/
theorem progress_ring_active_unique_witness :
    countActive ((ExecProgressRenderer.init 5).noteEvents
        [evStartedA, evCompletedA]).recentActionIds
      ((ExecProgressRenderer.init 5).noteEvents
        [evStartedA, evCompletedA]).recentActionCompleted "a" ≤ 1 ∧
    (((ExecProgressRenderer.init 5).noteEvents [evStartedA]).appendAction
        "a" false "line").recentActionIds
      = ((ExecProgressRenderer.init 5).noteEvents [evStartedA]).recentActionIds :=
  ⟨progress_ring_active_unique.1 5 [evStartedA, evCompletedA] "a",
   (progress_ring_active_unique.2 ((ExecProgressRenderer.init 5).noteEvents
      [evStartedA]) "a" false "line" 0 (by decide)).1⟩

/-! Theorems about the step counter (C4). -/

theorem updateCount_same (f : String → ℕ) (k : String) (v : ℕ) :
    updateCount f k v k = v := by
  simp [updateCount]

theorem updateCount_other (f : String → ℕ) (k : String) (v : ℕ) (j : String)
    (h : j ≠ k) : updateCount f k v j = f j := by
  simp [updateCount, h]

theorem bumpCounters_completed_zero (st : ExecProgressRenderer) (aid : String)
    (h0 : st.startedCounts aid = 0) :
    (st.bumpCounters aid "completed").actionCount = st.actionCount + 1 ∧
    (st.bumpCounters aid "completed").startedCounts = st.startedCounts := by
  unfold ExecProgressRenderer.bumpCounters
  simp [h0]

theorem bumpCounters_completed_pos (st : ExecProgressRenderer) (aid : String)
    (h0 : 1 ≤ st.startedCounts aid) :
    (st.bumpCounters aid "completed").actionCount = st.actionCount ∧
    (st.bumpCounters aid "completed").startedCounts =
      updateCount st.startedCounts aid (st.startedCounts aid - 1) := by
  unfold ExecProgressRenderer.bumpCounters
  have hne : ¬st.startedCounts aid = 0 := by omega
  by_cases h1 : st.startedCounts aid = 1
  · simp [hne, h1]
  · simp [hne, h1]

theorem bumpCounters_fresh (st : ExecProgressRenderer) (aid ph : String)
    (hph : ¬ph = "completed") (h0 : st.startedCounts aid = 0) :
    (st.bumpCounters aid ph).actionCount = st.actionCount + 1 ∧
    (st.bumpCounters aid ph).startedCounts = updateCount st.startedCounts aid 1 := by
  unfold ExecProgressRenderer.bumpCounters
  simp [hph, h0]

theorem bumpCounters_seen (st : ExecProgressRenderer) (aid ph : String)
    (hph : ¬ph = "completed") (h0 : ¬st.startedCounts aid = 0) :
    (st.bumpCounters aid ph).actionCount = st.actionCount ∧
    (st.bumpCounters aid ph).startedCounts =
      updateCount st.startedCounts aid
        (if ph = "started" then st.startedCounts aid + 1 else st.startedCounts aid) := by
  unfold ExecProgressRenderer.bumpCounters
  by_cases h3 : ph = "started" <;> simp [hph, h0, h3]

theorem appendAction_counts (st : ExecProgressRenderer) (aid : String)
    (completed : Bool) (line : String) :
    (st.appendAction aid completed line).actionCount = st.actionCount ∧
    (st.appendAction aid completed line).startedCounts = st.startedCounts := by
  unfold ExecProgressRenderer.appendAction
  cases findActiveIdx st.recentActionIds st.recentActionCompleted aid with
  | some i => exact ⟨rfl, rfl⟩
  | none =>
    by_cases hfull : st.recentActions.length ≥ st.maxActions <;> simp [hfull]

theorem noteEvent_counts_irrelevant (st : ExecProgressRenderer) (ev : TakopiEvent)
    (h : eventActionId ev = none) :
    (st.noteEvent ev).2.actionCount = st.actionCount ∧
    (st.noteEvent ev).2.startedCounts = st.startedCounts := by
  cases ev with
  | started r t => exact ⟨rfl, rfl⟩
  | otherEv => exact ⟨rfl, rfl⟩
  | actionEv a ph okv =>
    by_cases hturn : a.kind = "turn"
    · simp [ExecProgressRenderer.noteEvent, hturn]
    · by_cases hid : a.id = ""
      · simp [ExecProgressRenderer.noteEvent, hturn, hid]
      · rw [eventActionId, if_neg hturn, if_neg hid] at h
        exact absurd h (by simp)

theorem noteEvent_counts_action (st : ExecProgressRenderer) (a : Action)
    (ph : String) (okv : Option Bool) (hturn : ¬a.kind = "turn")
    (hid : ¬a.id = "") :
    (st.noteEvent (.actionEv a ph okv)).2.actionCount
        = (st.bumpCounters a.id ph).actionCount ∧
    (st.noteEvent (.actionEv a ph okv)).2.startedCounts
        = (st.bumpCounters a.id ph).startedCounts := by
  rw [noteEvent_action_snd st a ph okv hturn hid]
  exact appendAction_counts _ _ _ _

theorem relevantFree_head {aid : String} {e : TakopiEvent} {evs : List TakopiEvent}
    (h : relevantFree aid (e :: evs) = true) : eventRelevantFor aid e = false := by
  rw [relevantFree, List.all_cons, Bool.and_eq_true] at h
  cases hc : eventRelevantFor aid e
  · rfl
  · rw [hc] at h; exact absurd h.1 (by simp)

theorem relevantFree_tail {aid : String} {e : TakopiEvent} {evs : List TakopiEvent}
    (h : relevantFree aid (e :: evs) = true) : relevantFree aid evs = true := by
  rw [relevantFree, List.all_cons, Bool.and_eq_true] at h
  exact h.2

theorem eventCompletedFor_relevant {aid : String} {ev : TakopiEvent}
    (h : eventCompletedFor aid ev = true) : eventRelevantFor aid ev = true := by
  cases ev with
  | started r t => exact absurd h (by simp [eventCompletedFor])
  | otherEv => exact absurd h (by simp [eventCompletedFor])
  | actionEv a ph okv =>
    rw [eventCompletedFor, decide_eq_true_eq] at h
    rw [eventRelevantFor, decide_eq_true_eq]
    exact h.1

theorem wfFor_tail {aid : String} {e : TakopiEvent} {evs : List TakopiEvent}
    (h : wfFor aid (e :: evs) = true) : wfFor aid evs = true := by
  rw [wfFor, Bool.and_eq_true] at h
  exact h.2

theorem wfFor_completed_head {aid : String} {e : TakopiEvent} {evs : List TakopiEvent}
    (h : wfFor aid (e :: evs) = true) (hc : eventCompletedFor aid e = true) :
    relevantFree aid evs = true := by
  rw [wfFor, Bool.and_eq_true] at h
  have := h.1
  rw [hc] at this
  simpa using this

theorem wfFor_of_relevantFree (aid : String) (evs : List TakopiEvent)
    (h : relevantFree aid evs = true) : wfFor aid evs = true := by
  induction evs with
  | nil => rfl
  | cons e rest ih =>
    have hh := relevantFree_head h
    have ht := relevantFree_tail h
    rw [wfFor, Bool.and_eq_true]
    refine ⟨?_, ih ht⟩
    cases hc : eventCompletedFor aid e
    · simp [hc]
    · rw [eventCompletedFor_relevant hc] at hh
      exact absurd hh (by simp)

theorem wfEvents_all {evs : List TakopiEvent} (h : wfEvents evs = true) :
    ∀ aid, wfFor aid evs = true := by
  intro aid
  by_cases hmem : aid ∈ eventIds evs
  · exact List.all_eq_true.mp h aid hmem
  · apply wfFor_of_relevantFree
    rw [relevantFree, List.all_eq_true]
    intro e he
    cases hc : eventRelevantFor aid e
    · rfl
    · exfalso
      apply hmem
      rw [eventIds, List.mem_filterMap]
      exact ⟨e, he, of_decide_eq_true hc⟩

theorem card_insert_eq_erase {α : Type} [DecidableEq α] (i : α) (S : Finset α) :
    (insert i S).card = (S.erase i).card + 1 := by
  by_cases hmem : i ∈ S
  · rw [Finset.insert_eq_self.mpr hmem]
    exact (Finset.card_erase_add_one hmem).symm
  · rw [Finset.card_insert_of_not_mem hmem, Finset.erase_eq_of_not_mem hmem]

theorem sdiff_insert_of_mem {α : Type} [DecidableEq α] (T seen : Finset α) (i : α)
    (h : i ∈ seen) : insert i T \ seen = T \ seen := by
  ext x
  simp only [Finset.mem_sdiff, Finset.mem_insert]
  constructor
  · rintro ⟨h1 | h1, h2⟩
    · exact absurd (h1 ▸ h) h2
    · exact ⟨h1, h2⟩
  · rintro ⟨h1, h2⟩
    exact ⟨Or.inr h1, h2⟩

theorem card_sdiff_insert_of_not_mem {α : Type} [DecidableEq α] (T seen : Finset α)
    (i : α) (hi : i ∉ seen) :
    (insert i T \ seen).card = (T \ insert i seen).card + 1 := by
  have h1 : insert i T \ seen = insert i (T \ seen) := by
    ext x
    simp only [Finset.mem_sdiff, Finset.mem_insert]
    constructor
    · rintro ⟨h1 | h1, h2⟩
      · exact Or.inl h1
      · exact Or.inr ⟨h1, h2⟩
    · rintro (h1 | ⟨h1, h2⟩)
      · exact ⟨Or.inl h1, h1 ▸ hi⟩
      · exact ⟨Or.inr h1, h2⟩
  have h2 : T \ insert i seen = (T \ seen).erase i := by
    ext x
    simp only [Finset.mem_sdiff, Finset.mem_insert, Finset.mem_erase]
    constructor
    · rintro ⟨h1, h2⟩
      exact ⟨fun hx => h2 (Or.inl hx), h1, fun hx => h2 (Or.inr hx)⟩
    · rintro ⟨h1, h2, h3⟩
      exact ⟨h2, fun hx => hx.elim h1 h3⟩
  rw [h1, h2, card_insert_eq_erase]

/-- The step-counter invariant: running the renderer over a well-formed
event suffix adds exactly the number of tracked ids not seen before. -/
theorem noteEvents_actionCount (evs : List TakopiEvent) :
    ∀ (st : ExecProgressRenderer) (seen comp : Finset String),
    (∀ aid, wfFor aid evs = true) →
    (∀ aid, aid ∈ comp → relevantFree aid evs = true) →
    (∀ aid, aid ∉ seen → st.startedCounts aid = 0) →
    (∀ aid, aid ∈ seen → aid ∉ comp → 1 ≤ st.startedCounts aid) →
    comp ⊆ seen →
    (st.noteEvents evs).actionCount
      = st.actionCount + ((eventIds evs).toFinset \ seen).card := by
  induction evs with
  | nil =>
    intro st seen comp _ _ _ _ _
    simp [ExecProgressRenderer.noteEvents, eventIds]
  | cons e rest ih =>
    intro st seen comp hwf hcf hA hB hC
    have hwf' : ∀ aid, wfFor aid rest = true := fun aid => wfFor_tail (hwf aid)
    have hstep : st.noteEvents (e :: rest) = ((st.noteEvent e).2).noteEvents rest := rfl
    cases hi : eventActionId e with
    | none =>
      obtain ⟨hac, hsc⟩ := noteEvent_counts_irrelevant st e hi
      have heids : eventIds (e :: rest) = eventIds rest := by
        simp [eventIds, List.filterMap_cons, hi]
      rw [hstep, heids,
        ih _ seen comp hwf' (fun aid ha => relevantFree_tail (hcf aid ha))
          (fun aid ha => by rw [hsc]; exact hA aid ha)
          (fun aid h1 h2 => by rw [hsc]; exact hB aid h1 h2) hC, hac]
    | some i =>
      cases e with
      | started r t => exact absurd hi (by simp [eventActionId])
      | otherEv => exact absurd hi (by simp [eventActionId])
      | actionEv a ph okv =>
        by_cases hturn : a.kind = "turn"
        · rw [eventActionId, if_pos hturn] at hi
          exact absurd hi (by simp)
        · by_cases hid : a.id = ""
          · rw [eventActionId, if_neg hturn, if_pos hid] at hi
            exact absurd hi (by simp)
          · have hai : a.id = i := by
              rw [eventActionId, if_neg hturn, if_neg hid] at hi
              exact Option.some.inj hi
            have hrel : eventRelevantFor i (.actionEv a ph okv) = true := by
              rw [eventRelevantFor, decide_eq_true_eq]
              exact hi
            have hcompfree : i ∉ comp := by
              intro hmem
              have := relevantFree_head (hcf i hmem)
              rw [hrel] at this
              exact absurd this (by simp)
            obtain ⟨hac, hsc⟩ := noteEvent_counts_action st a ph okv hturn hid
            have heids : eventIds (.actionEv a ph okv :: rest) = i :: eventIds rest := by
              simp [eventIds, List.filterMap_cons, hi]
            rw [hstep, heids, List.toFinset_cons]
            by_cases hph : ph = "completed"
            · subst hph
              have hcompl : eventCompletedFor i (.actionEv a "completed" okv) = true := by
                rw [eventCompletedFor, decide_eq_true_eq]
                constructor
                · rw [eventActionId, if_neg hturn, if_neg hid, hai]
                · rfl
              have hfree : relevantFree i rest = true :=
                wfFor_completed_head (hwf i) hcompl
              by_cases hseen : i ∈ seen
              · have hb := hB i hseen hcompfree
                rw [hai] at hac hsc
                obtain ⟨hac2, hsc2⟩ :=
                  bumpCounters_completed_pos st i (by rw [← hai] at hb ⊢; exact hb)
                rw [ih _ seen (insert i comp) hwf'
                  (fun aid ha => by
                    rcases Finset.mem_insert.mp ha with hq | hq
                    · exact hq ▸ hfree
                    · exact relevantFree_tail (hcf aid hq))
                  (fun aid ha => by
                    rw [hsc, hsc2, updateCount_other _ _ _ _ (fun hx => (hx ▸ ha) hseen)]
                    exact hA aid ha)
                  (fun aid h1 h2 => by
                    have hne : aid ≠ i := fun hx => h2 (hx ▸ Finset.mem_insert_self i comp)
                    rw [hsc, hsc2, updateCount_other _ _ _ _ hne]
                    exact hB aid h1 (fun hx => h2 (Finset.mem_insert_of_mem hx)))
                  (Finset.insert_subset hseen hC)]
                rw [hac, hac2, sdiff_insert_of_mem _ _ _ hseen]
              · have h0 : st.startedCounts i = 0 := hA i hseen
                rw [hai] at hac hsc
                obtain ⟨hac2, hsc2⟩ :=
                  bumpCounters_completed_zero st i (by rw [← hai] at h0 ⊢; exact h0)
                rw [ih _ (insert i seen) (insert i comp) hwf'
                  (fun aid ha => by
                    rcases Finset.mem_insert.mp ha with hq | hq
                    · exact hq ▸ hfree
                    · exact relevantFree_tail (hcf aid hq))
                  (fun aid ha => by
                    rw [hsc, hsc2]
                    exact hA aid (fun hx => ha (Finset.mem_insert_of_mem hx)))
                  (fun aid h1 h2 => by
                    have hne : aid ≠ i := fun hx => h2 (hx ▸ Finset.mem_insert_self i comp)
                    rw [hsc, hsc2]
                    exact hB aid
                      ((Finset.mem_insert.mp h1).resolve_left hne)
                      (fun hx => h2 (Finset.mem_insert_of_mem hx)))
                  (Finset.insert_subset_insert i hC)]
                rw [hac, hac2, card_sdiff_insert_of_not_mem _ _ _ hseen]
                omega
            · by_cases hseen : i ∈ seen
              · have hb := hB i hseen hcompfree
                rw [hai] at hac hsc
                obtain ⟨hac2, hsc2⟩ :=
                  bumpCounters_seen st i ph hph (by rw [← hai] at hb ⊢; omega)
                rw [ih _ seen comp hwf'
                  (fun aid ha => relevantFree_tail (hcf aid ha))
                  (fun aid ha => by
                    rw [hsc, hsc2, updateCount_other _ _ _ _ (fun hx => (hx ▸ ha) hseen)]
                    exact hA aid ha)
                  (fun aid h1 h2 => by
                    rw [hsc, hsc2]
                    by_cases hne : aid = i
                    · subst hne
                      rw [updateCount_same]
                      split <;> omega
                    · rw [updateCount_other _ _ _ _ hne]
                      exact hB aid h1 h2) hC]
                rw [hac, hac2, sdiff_insert_of_mem _ _ _ hseen]
              · have h0 : st.startedCounts i = 0 := hA i hseen
                rw [hai] at hac hsc
                obtain ⟨hac2, hsc2⟩ :=
                  bumpCounters_fresh st i ph hph (by rw [← hai] at h0 ⊢; exact h0)
                rw [ih _ (insert i seen) comp hwf'
                  (fun aid ha => relevantFree_tail (hcf aid ha))
                  (fun aid ha => by
                    have hne : aid ≠ i := fun hx => ha (hx ▸ Finset.mem_insert_self i seen)
                    rw [hsc, hsc2, updateCount_other _ _ _ _ hne]
                    exact hA aid (fun hx => ha (Finset.mem_insert_of_mem hx)))
                  (fun aid h1 h2 => by
                    rw [hsc, hsc2]
                    by_cases hne : aid = i
                    · subst hne
                      rw [updateCount_same]
                    · rw [updateCount_other _ _ _ _ hne]
                      exact hB aid
                        ((Finset.mem_insert.mp h1).resolve_left hne) h2)
                  (hC.trans (Finset.subset_insert i seen))]
                rw [hac, hac2, card_sdiff_insert_of_not_mem _ _ _ hseen]
                omega

/-- C4 (counterexample): a start/completion cycle for id `a` followed by a
re-start and second completion of the same id leaves `action_count = 2`,
while only one distinct action id was observed — a balanced re-start after
a completed cycle opens a new count. -/
theorem progress_action_count_restart_cex :
    ((ExecProgressRenderer.init 5).noteEvents
        [evStartedA, evCompletedA, evStartedA, evCompletedA]).actionCount = 2 ∧
    (eventIds [evStartedA, evCompletedA, evStartedA, evCompletedA]).toFinset.card
        = 1 ∧
    ((ExecProgressRenderer.init 5).noteEvents
        [evStartedA, evCompletedA, evStartedA, evCompletedA]).actionCount ≠
      (eventIds [evStartedA, evCompletedA, evStartedA, evCompletedA]).toFinset.card := by
  decide

/-- C4 (amended): the step counter increments the first time an action id
is seen, and re-starts of an id balanced against its completions inside
one completion cycle do not increment it again: for every event sequence
in which each action id has at most one completed event and that completed
event (when present) is the id's last tracked event, the final
`action_count` equals the number of distinct action ids observed. -/
theorem progress_action_count_distinct (n : ℕ) (evs : List TakopiEvent)
    (h : wfEvents evs = true) :
    ((ExecProgressRenderer.init n).noteEvents evs).actionCount
      = (eventIds evs).toFinset.card := by
  have hmain := noteEvents_actionCount evs (ExecProgressRenderer.init n) ∅ ∅
    (wfEvents_all h) (fun aid ha => absurd ha (Finset.not_mem_empty aid))
    (fun aid _ => rfl) (fun aid h1 _ => absurd h1 (Finset.not_mem_empty aid))
    (Finset.empty_subset ∅)
  simpa [ExecProgressRenderer.init] using hmain

/-- Witness for `progress_action_count_distinct`: one started/completed
cycle for a single id yields `action_count = 1 =` number of distinct ids. -/
theorem progress_action_count_distinct_witness :
    ((ExecProgressRenderer.init 5).noteEvents [evStartedA, evCompletedA]).actionCount
      = (eventIds [evStartedA, evCompletedA]).toFinset.card :=
  progress_action_count_distinct 5 [evStartedA, evCompletedA] (by decide)

/-! Theorems about the completion status symbol (C8). -/

/-- The completion tie-break as the spec words it: an explicit `ok` flag
wins (`✓` for true, `✗` for false); otherwise a detail `exit_code` that is
an integer different from 0 means `✗`; otherwise `✓`. -/
def specCompletedSymbol (action : Action) (ok : Option Bool) : String :=
  match ok with
  | some true => STATUS_DONE
  | some false => STATUS_FAIL
  | none =>
    match detailGet action.detail "exit_code" with
    | some v => if v.isInstInt ∧ v.asInt ≠ 0 then STATUS_FAIL else STATUS_DONE
    | none => STATUS_DONE

/-- C8: for every completed action the rendered status symbol follows the
tie-break `ok` flag > non-zero integer exit code > ok, both through
`action_status_symbol` and through `phase_status_and_suffix`. -/
theorem completed_status_tie_break (action : Action) (ok : Option Bool) :
    (phaseStatusAndSuffix action "completed" ok).1 = specCompletedSymbol action ok ∧
    actionStatusSymbol action true ok = specCompletedSymbol action ok := by
  have hsym : actionStatusSymbol action true ok = specCompletedSymbol action ok := by
    cases ok with
    | some b => cases b <;> rfl
    | none => rfl
  exact ⟨by rw [phaseStatusAndSuffix, if_pos rfl]; exact hsym, hsym⟩

/-! Theorems about the topic rename helper (C7). -/

/-- C7: binding a topic thread again to the context it is already bound to
issues zero rename calls and writes nothing to the store: when the
effective snapshot's `topic_title` equals the title computed from the
context, `_maybe_rename_topic` returns without effects. -/
theorem maybe_rename_topic_idempotent (ps : ProjectsConfig)
    (snapshotArg storeSnapshot : Option TopicThreadSnapshot)
    (s : TopicThreadSnapshot) (context : RunContext) (renameOk : Bool)
    (hsnap : (match snapshotArg with
      | some x => some x
      | none => storeSnapshot) = some s)
    (htitle : s.topic_title = some (topicTitleFor ps context)) :
    maybeRenameTopic ps snapshotArg storeSnapshot context renameOk
      = ⟨[], none⟩ := by
  simp only [maybeRenameTopic]
  rw [hsnap]
  simp [htitle]

/-- Witness for `maybe_rename_topic_idempotent`: a thread already bound to
`proj @feat` whose stored title is `proj @feat`. -/
theorem maybe_rename_topic_idempotent_witness :
    maybeRenameTopic rtPlain.projects
      (some ⟨some ⟨some "proj", some "feat"⟩, some "proj @feat"⟩) none
      ⟨some "proj", some "feat"⟩ true = ⟨[], none⟩ :=
  maybe_rename_topic_idempotent rtPlain.projects
    (some ⟨some ⟨some "proj", some "feat"⟩, some "proj @feat"⟩) none
    ⟨some ⟨some "proj", some "feat"⟩, some "proj @feat"⟩
    ⟨some "proj", some "feat"⟩ true (by decide) (by decide)

/-! Theorems about the command menu (C9, C10). -/

/-- Union with first occurrence kept, by command name, relative to a list
of already-seen command names. -/
def dedupByCommand : List BotCommand → List String → List BotCommand
  | [], _ => []
  | c :: rest, seen =>
    if c.command ∈ seen then dedupByCommand rest seen
    else c :: dedupByCommand rest (seen ++ [c.command])

theorem dedupByCommand_append (l1 l2 : List BotCommand) (seen : List String) :
    dedupByCommand (l1 ++ l2) seen =
      dedupByCommand l1 seen ++
        dedupByCommand l2 (seen ++ (dedupByCommand l1 seen).map (fun c => c.command)) := by
  induction l1 generalizing seen with
  | nil => simp [dedupByCommand]
  | cons c rest ih =>
    by_cases hc : c.command ∈ seen
    · rw [List.cons_append, dedupByCommand, if_pos hc, dedupByCommand, if_pos hc]
      exact ih seen
    · rw [List.cons_append, dedupByCommand, if_neg hc, dedupByCommand, if_neg hc,
        ih (seen ++ [c.command])]
      simp [List.append_assoc]

theorem commandStage_eq (validId : String → Bool) (checkValid : Bool) :
    ∀ (l : List BotCommand) (cs : List BotCommand) (seen : List String),
    commandStage validId checkValid l (cs, seen) =
      (cs ++ dedupByCommand
        (if checkValid then l.filter (fun c => validId c.command) else l) seen,
       seen ++ (dedupByCommand
        (if checkValid then l.filter (fun c => validId c.command) else l) seen).map
          (fun c => c.command)) := by
  intro l
  induction l with
  | nil => intro cs seen; cases checkValid <;> simp [commandStage, dedupByCommand]
  | cons c rest ih =>
    intro cs seen
    rw [commandStage]
    cases checkValid with
    | false =>
      by_cases hc : c.command ∈ seen
      · rw [if_pos hc, ih]
        simp [dedupByCommand, hc]
      · rw [if_neg hc]
        have hcond : ¬(false = true ∧ ¬validId c.command = true) := by simp
        rw [if_neg hcond, ih]
        simp [dedupByCommand, hc, List.append_assoc]
    | true =>
      by_cases hc : c.command ∈ seen
      · rw [if_pos hc, ih]
        by_cases hv : validId c.command
        · simp [dedupByCommand, hc, hv, List.filter_cons, List.append_assoc]
        · simp [dedupByCommand, hc, hv, List.filter_cons]
      · rw [if_neg hc]
        by_cases hv : validId c.command
        · have hcond : ¬(true = true ∧ ¬validId c.command = true) := by simp [hv]
          rw [if_neg hcond, ih]
          simp [dedupByCommand, hc, hv, List.filter_cons, List.append_assoc]
        · have hcond : (true = true ∧ ¬validId c.command = true) := by simp [hv]
          rw [if_pos hcond, ih]
          simp [dedupByCommand, hc, hv, List.filter_cons]

/-- The assembled (pre-cap) command menu is the in-order union, with first
occurrences kept, of the engine entries, the valid alias entries, the
valid plugin entries, and the `file`/`cancel` built-ins. -/
theorem assembleBotCommands_eq (validId : String → Bool)
    (engines aliases : List String) (plugins : List (String × String))
    (includeFile : Bool) :
    assembleBotCommands validId engines aliases plugins includeFile =
      dedupByCommand
        (engineCommands engines ++
          (aliasCommands aliases).filter (fun c => validId c.command) ++
          (pluginCommands plugins).filter (fun c => validId c.command) ++
          (if includeFile then [fileCommand] else []) ++ [cancelCommand]) [] := by
  simp only [assembleBotCommands, commandStage_eq, Bool.false_eq_true, ite_false,
    ite_true, List.nil_append]
  rw [dedupByCommand_append, dedupByCommand_append, dedupByCommand_append,
    dedupByCommand_append]
  simp only [List.map_append, List.nil_append, List.append_assoc]
  set d1 := dedupByCommand (engineCommands engines) [] with hd1
  set s1 := d1.map (fun c => c.command) with hs1
  set d2 := dedupByCommand ((aliasCommands aliases).filter (fun c => validId c.command)) s1
    with hd2
  set s2 := d2.map (fun c => c.command) with hs2
  set d3 := dedupByCommand ((pluginCommands plugins).filter (fun c => validId c.command))
    (s1 ++ s2) with hd3
  set s3 := d3.map (fun c => c.command) with hs3
  cases includeFile with
  | false =>
    by_cases h1 : "cancel" ∈ s1 <;> by_cases h2 : "cancel" ∈ s2 <;>
      by_cases h3 : "cancel" ∈ s3 <;>
        simp_all [dedupByCommand, cancelCommand, List.mem_append, List.append_assoc]
  | true =>
    by_cases f1 : "file" ∈ s1 <;> by_cases f2 : "file" ∈ s2 <;>
      by_cases f3 : "file" ∈ s3 <;> by_cases h1 : "cancel" ∈ s1 <;>
        by_cases h2 : "cancel" ∈ s2 <;> by_cases h3 : "cancel" ∈ s3 <;>
          simp_all [dedupByCommand, cancelCommand, fileCommand, List.mem_append,
            List.append_assoc]

theorem capBotCommands_length (l : List BotCommand) :
    (capBotCommands l).length ≤ MAX_BOT_COMMANDS := by
  unfold capBotCommands
  by_cases h : l.length > MAX_BOT_COMMANDS
  · rw [if_pos h]
    by_cases h2 : (l.take MAX_BOT_COMMANDS).any (fun c => c.command = "cancel")
    · rw [if_pos h2]
      rw [List.length_take]
      omega
    · rw [if_neg h2]
      rw [List.length_set, List.length_take]
      omega
  · rw [if_neg h]
    omega

theorem dedupByCommand_covers (k : String) : ∀ (l : List BotCommand)
    (seen : List String), (∃ c ∈ l, c.command = k) → k ∉ seen →
    ∃ c ∈ dedupByCommand l seen, c.command = k := by
  intro l
  induction l with
  | nil => intro seen hl _; obtain ⟨c, hc, _⟩ := hl; exact absurd hc (by simp)
  | cons c rest ih =>
    intro seen hl hs
    by_cases hck : c.command = k
    · have hmem : c.command ∉ seen := fun hx => hs (hck ▸ hx)
      rw [dedupByCommand, if_neg hmem]
      exact ⟨c, List.mem_cons_self c _, hck⟩
    · have hl2 : ∃ x ∈ rest, x.command = k := by
        obtain ⟨x, hx1, hx2⟩ := hl
        rcases List.mem_cons.mp hx1 with hx | hx
        · exact absurd (hx ▸ hx2) hck
        · exact ⟨x, hx, hx2⟩
      by_cases hmem : c.command ∈ seen
      · rw [dedupByCommand, if_pos hmem]
        exact ih seen hl2 hs
      · rw [dedupByCommand, if_neg hmem]
        have hs2 : k ∉ seen ++ [c.command] := by
          intro hx
          rcases List.mem_append.mp hx with hx | hx
          · exact hs hx
          · exact hck ((List.mem_singleton.mp hx).symm)
        obtain ⟨x, hx1, hx2⟩ := ih (seen ++ [c.command]) hl2 hs2
        exact ⟨x, List.mem_cons_of_mem c hx1, hx2⟩

theorem capBotCommands_cancel {l : List BotCommand}
    (h : ∃ c ∈ l, c.command = "cancel") :
    ∃ c ∈ capBotCommands l, c.command = "cancel" := by
  unfold capBotCommands
  by_cases hlen : l.length > MAX_BOT_COMMANDS
  · rw [if_pos hlen]
    by_cases hany : (l.take MAX_BOT_COMMANDS).any (fun c => c.command = "cancel")
    · rw [if_pos hany]
      obtain ⟨c, hc1, hc2⟩ := List.any_eq_true.mp hany
      exact ⟨c, hc1, of_decide_eq_true hc2⟩
    · rw [if_neg hany]
      have hlen100 : (l.take MAX_BOT_COMMANDS).length = MAX_BOT_COMMANDS := by
        rw [List.length_take]
        omega
      have hpos : 0 < MAX_BOT_COMMANDS := by norm_num [MAX_BOT_COMMANDS]
      have hb : (l.take MAX_BOT_COMMANDS).length - 1 <
          ((l.take MAX_BOT_COMMANDS).set
            ((l.take MAX_BOT_COMMANDS).length - 1) cancelCommand).length := by
        rw [List.length_set]
        omega
      have hget := List.getElem_set_self hb
      exact ⟨_, List.getElem_mem hb, by rw [hget]; rfl⟩
  · rw [if_neg hlen]
    exact h

/-- C10: every command menu built by `_build_bot_commands` publishes the
`cancel` command: it is appended when absent before the 100-entry cap, and
when the truncation to 100 entries would drop it, the last surviving entry
is replaced by the cancel entry. -/
theorem build_bot_commands_cancel_present (validId : String → Bool)
    (engines aliases : List String) (plugins : List (String × String))
    (includeFile : Bool) :
    ∃ c ∈ buildBotCommands validId engines aliases plugins includeFile,
      c.command = "cancel" := by
  apply capBotCommands_cancel
  rw [assembleBotCommands_eq]
  apply dedupByCommand_covers
  · exact ⟨cancelCommand, by simp, rfl⟩
  · simp

/-- C9 (amended): the command menu is the in-order union (first occurrence
kept) of the engine entries, the valid project-alias entries, the valid
plugin entries, and the `file`/`cancel` built-ins, capped at 100 entries;
when the union exceeds 100 entries it is truncated to the first 100,
except that if the cancel entry would be dropped the last surviving entry
is replaced by it. -/
theorem build_bot_commands_union_cap (validId : String → Bool)
    (engines aliases : List String) (plugins : List (String × String))
    (includeFile : Bool) :
    buildBotCommands validId engines aliases plugins includeFile =
      capBotCommands (dedupByCommand
        (engineCommands engines ++
          (aliasCommands aliases).filter (fun c => validId c.command) ++
          (pluginCommands plugins).filter (fun c => validId c.command) ++
          (if includeFile then [fileCommand] else []) ++ [cancelCommand]) []) ∧
    (buildBotCommands validId engines aliases plugins includeFile).length
      ≤ MAX_BOT_COMMANDS :=
  ⟨congrArg capBotCommands
      (assembleBotCommands_eq validId engines aliases plugins includeFile),
   capBotCommands_length (assembleBotCommands validId engines aliases plugins
      includeFile)⟩

/-- 101 project aliases, enough to overflow the 100-entry menu limit. -/
def bigAliases : List String := (List.range 101).map (fun n => "p" ++ toString n)

set_option maxRecDepth 100000 in
/-- C9 (counterexample): with 101 project aliases the assembled union has
103 entries, and the published menu is not the first 100 entries of the
union — the 100th entry is replaced by the cancel entry. -/
theorem build_bot_commands_take_cex :
    (assembleBotCommands (fun _ => true) [] bigAliases [] true).length = 103 ∧
    buildBotCommands (fun _ => true) [] bigAliases [] true ≠
      (assembleBotCommands (fun _ => true) [] bigAliases [] true).take
        MAX_BOT_COMMANDS := by
  decide

/-! Theorems about the media-group coalescer (C6). -/

theorem tokenAt_le_length (ts : List ℕ) (t : ℕ) : tokenAt ts t ≤ ts.length :=
  List.length_filter_le _ _

theorem tokenAt_cons (x : ℕ) (rest : List ℕ) (t : ℕ) :
    tokenAt (x :: rest) t = (if x ≤ t then 1 else 0) + tokenAt rest t := by
  unfold tokenAt
  rw [List.filter_cons]
  by_cases hx : x ≤ t
  · simp [hx]
    omega
  · simp [hx]

theorem tokenAt_mono (ts : List ℕ) {a b : ℕ} (h : a ≤ b) :
    tokenAt ts a ≤ tokenAt ts b := by
  induction ts with
  | nil => exact Nat.le_refl _
  | cons x rest ih =>
    rw [tokenAt_cons, tokenAt_cons]
    have hhead : (if x ≤ a then 1 else 0) ≤ (if x ≤ b then 1 else 0) := by
      split_ifs <;> omega
    omega

theorem tokenAt_lt (ts : List ℕ) {a b t : ℕ} (ht : t ∈ ts) (h1 : a < t)
    (h2 : t ≤ b) : tokenAt ts a < tokenAt ts b := by
  induction ts with
  | nil => exact absurd ht (by simp)
  | cons x rest ih =>
    rw [tokenAt_cons, tokenAt_cons]
    have hmono : tokenAt rest a ≤ tokenAt rest b := tokenAt_mono rest (by omega)
    rcases List.mem_cons.mp ht with hx | hx
    · subst hx
      rw [if_neg (by omega), if_pos h2]
      omega
    · have hrest := ih hx
      have hhead : (if x ≤ a then 1 else 0) ≤ (if x ≤ b then 1 else 0) := by
        split_ifs <;> omega
      omega

theorem tokenAt_all (ts : List ℕ) {t : ℕ} (h : ∀ x ∈ ts, x ≤ t) :
    tokenAt ts t = ts.length := by
  unfold tokenAt
  rw [List.filter_eq_self.mpr]
  intro x hx
  exact decide_eq_true (h x hx)

theorem gapsOk_tail (D : ℕ) (x : ℕ) (rest : List ℕ)
    (h : gapsOk D (x :: rest) = true) : gapsOk D rest = true := by
  cases rest with
  | nil => rfl
  | cons y rr =>
    rw [gapsOk, Bool.and_eq_true] at h
    exact h.2

theorem gapsOk_head_lt (D : ℕ) : ∀ (x : ℕ) (rest : List ℕ),
    gapsOk D (x :: rest) = true → ∀ t ∈ rest, x < t := by
  intro x rest
  induction rest generalizing x with
  | nil => intro _ t ht; exact absurd ht (by simp)
  | cons y rr ih =>
    intro h t ht
    rw [gapsOk, Bool.and_eq_true, decide_eq_true_eq] at h
    rcases List.mem_cons.mp ht with hx | hx
    · omega
    · have := ih y h.2 t hx
      omega

theorem exists_arrival_in_gap (D : ℕ) : ∀ (ts : List ℕ), gapsOk D ts = true →
    ∀ a, (∃ t ∈ ts, t ≤ a) → (∃ t ∈ ts, a < t) →
    ∃ t ∈ ts, a < t ∧ t ≤ a + D := by
  intro ts
  induction ts with
  | nil =>
    intro _ a h1 _
    obtain ⟨t, ht, _⟩ := h1
    exact absurd ht (by simp)
  | cons x rest ih =>
    intro hg a h1 h2
    by_cases hrle : ∃ t ∈ rest, t ≤ a
    · obtain ⟨t2, ht2, ht2a⟩ := h2
      have ht2rest : t2 ∈ rest := by
        rcases List.mem_cons.mp ht2 with hx | hx
        · exfalso
          obtain ⟨t3, ht3, ht3a⟩ := hrle
          have := gapsOk_head_lt D x rest hg t3 ht3
          omega
        · exact hx
      obtain ⟨t, ht, hta, htb⟩ := ih (gapsOk_tail D x rest hg) a hrle ⟨t2, ht2rest, ht2a⟩
      exact ⟨t, List.mem_cons_of_mem x ht, hta, htb⟩
    · push_neg at hrle
      have hxa : x ≤ a := by
        obtain ⟨t, ht, hta⟩ := h1
        rcases List.mem_cons.mp ht with hx | hx
        · omega
        · exact absurd hta (by have := hrle t hx; omega)
      cases rest with
      | nil =>
        exfalso
        obtain ⟨t, ht, hta⟩ := h2
        have : t = x := by simpa using ht
        omega
      | cons y rr =>
        rw [gapsOk, Bool.and_eq_true, decide_eq_true_eq] at hg
        refine ⟨y, List.mem_cons_of_mem x (List.mem_cons_self y rr), ?_, ?_⟩
        · exact hrle y (List.mem_cons_self y rr)
        · omega

theorem flushLoop_fires (ts : List ℕ) (D : ℕ) (hD : 0 < D)
    (hg : gapsOk D ts = true) :
    ∀ (fuel : ℕ) (wake : ℕ),
    ts.length < tokenAt ts (wake - D) + fuel →
    D ≤ wake →
    (∃ t ∈ ts, t ≤ wake - D) →
    ∃ w, flushLoop ts D fuel wake (tokenAt ts (wake - D)) = some w ∧
      ∀ t ∈ ts, t + D ≤ w := by
  intro fuel
  induction fuel with
  | zero =>
    intro wake hfuel _ _
    have := tokenAt_le_length ts (wake - D)
    omega
  | succ fuel ih =>
    intro wake hfuel hwD hlow
    rw [flushLoop]
    by_cases hfire : tokenAt ts wake = tokenAt ts (wake - D)
    · rw [if_pos hfire]
      refine ⟨wake, rfl, ?_⟩
      intro t ht
      by_cases hle : t ≤ wake - D
      · omega
      · exfalso
        obtain ⟨t2, ht2, ht2a, ht2b⟩ :=
          exists_arrival_in_gap D ts hg (wake - D) hlow ⟨t, ht, by omega⟩
        have hwsub : wake - D + D = wake := by omega
        rw [hwsub] at ht2b
        have hlt : tokenAt ts (wake - D) < tokenAt ts wake :=
          tokenAt_lt ts ht2 ht2a ht2b
        omega
    · rw [if_neg hfire]
      have hmono : tokenAt ts (wake - D) ≤ tokenAt ts wake :=
        tokenAt_mono ts (by omega)
      have hsub : (wake + D) - D = wake := by omega
      have hres := ih (wake + D)
        (by rw [hsub]; omega)
        (by omega)
        (by rw [hsub]; obtain ⟨t, ht, hta⟩ := hlow; exact ⟨t, ht, by omega⟩)
      rw [hsub] at hres
      exact hres

/-- C6: for every burst of media-group messages whose successive arrivals
are strictly less than one debounce sleep apart, the flush coroutine
invokes the handler exactly once, with all the burst's messages, at a time
at least one full debounce sleep after every arrival, and with the
per-group state already deleted when the handler runs. -/
theorem media_group_single_flush (ts : List ℕ) (D : ℕ) (hD : 0 < D)
    (hne : ts ≠ []) (hg : gapsOk D ts = true) :
    ∃ w, flushMediaGroup ts D = some ⟨w, ts, none⟩ ∧ ∀ t ∈ ts, t + D ≤ w := by
  obtain ⟨t1, rest, rfl⟩ := List.exists_cons_of_ne_nil hne
  have hwake : (t1 + D) - D = t1 := by omega
  have hlen := tokenAt_le_length (t1 :: rest) t1
  obtain ⟨w, hw1, hw2⟩ := flushLoop_fires (t1 :: rest) D hD hg
    ((t1 :: rest).length + 1) (t1 + D)
    (by rw [hwake]; omega) (by omega)
    (by rw [hwake]; exact ⟨t1, List.mem_cons_self t1 rest, Nat.le_refl t1⟩)
  rw [hwake] at hw1
  refine ⟨w, ?_, hw2⟩
  simp only [flushMediaGroup, flushTime]
  rw [hw1, Option.map_some']
  have hall : (t1 :: rest).filter (fun x => x ≤ w) = t1 :: rest := by
    rw [List.filter_eq_self]
    intro x hx
    have := hw2 x hx
    exact decide_eq_true (by omega)
  rw [hall]

/-- Witness for `media_group_single_flush`: two arrivals at ticks 0 and 1
with a 2-tick debounce; the single flush fires at tick 4 with both
messages. -/
theorem media_group_single_flush_witness :
    ∃ w, flushMediaGroup [0, 1] 2 = some ⟨w, [0, 1], none⟩ ∧
      ∀ t ∈ [0, 1], t + 2 ≤ w :=
  media_group_single_flush [0, 1] 2 (by decide) (by decide) (by decide)

end Takopi
